import Mathlib

/-!
# Verification of the `mpsim` matrix-product-state simulator

Shallow embedding of `mpsim/core.py` (class `MPS`).  A matrix product state
is a chain of site tensors connected by virtual bonds.  In the Python source
the chain is a `tensornetwork` graph of `tn.Node` objects; here each site
node is a named complex tensor indexed `(physical, left-bond, right-bond)`
(axis order of the arrays built in `MPS.__init__`: axis 0 is the physical
index, axes 1 and 2 are the virtual indices; boundary nodes are rank 2 and
are uniformised with a phantom bond of dimension 1).  The dimensions of the
connected virtual edges are kept in the `bonds` list (entry `i` is the edge
between sites `i` and `i+1`), mirroring the edge dimensions of the graph.

Python `int` parameters are modelled as `ℤ`; a Python `raise` is modelled by
returning `Except.error`, with one error constructor per distinct error the
source can raise.  Machine floats are modelled by `ℝ`/`ℂ`.
-/

namespace Mpsim

/-- Error outcomes of the `MPS` methods.  Each constructor corresponds to one
distinct `raise` site (all `ValueError` except `indexError`, which models a
Python `IndexError` coming from an out-of-range list subscript and is not a
documented error of the class). -/
inductive MPSError where
  /-- `__init__`: "Number of qudits must be greater than 2". -/
  | invalidShape
  /-- "MPS is invalid." / "Input mpslist does not define a valid MPS." -/
  | invalidMPS
  /-- "Index should be less than ..." / "Input tensor index ... out of bounds". -/
  | indexOutOfRange
  /-- Python `IndexError` from a bare list subscript (not a ValueError). -/
  | indexError
  /-- `tn.check_connected` ValueError: the two nodes share no edge. -/
  | notConnected
  /-- "Input indices cannot be identical." -/
  | identicalIndices
  /-- "Indices must be for adjacent tensors (must differ by one)." -/
  | nonAdjacent
  /-- "IndexA must be less than IndexB." -/
  | indexOrder
  /-- "Only one of (fraction, maxsvals) can be provided as kwargs." -/
  | conflictingOptions
  /-- "Keyword fraction must be between 0 and 1". -/
  | invalidOption
  /-- `MPSOperation.is_valid` failed: "Input MPS Operation is not valid." -/
  | invalidOperation
  /-- "Only one-qudit and two-qudit gates are currently supported." -/
  | unsupportedArity
  deriving DecidableEq

/-- A site tensor of the chain: the node name together with the tensor data,
indexed `(physical, left-bond, right-bond)`.  Indices outside the declared
dimensions are irrelevant (the value there is never used). -/
structure SiteNode where
  name : String
  tensor : ℕ → ℕ → ℕ → ℂ

/-- Placeholder node used as the default of list lookups (the Python source
would raise `IndexError` instead; every use below is guarded by an in-range
condition). -/
def blankNode : SiteNode := ⟨"", fun _ _ _ => 0⟩

/-- The state of `class MPS`: fields `_nqudits`, `_qudit_dimension`,
`_nodes`, and the virtual-bond dimensions of the connected edges (`bonds`,
entry `i` is the dimension of the edge between nodes `i` and `i+1`), plus
the `_max_bond_dimensions` list computed in `__init__`.  The bookkeeping
lists `_infidelities` / `_fidelities` are omitted: no claim refers to them. -/
structure MPS where
  nqudits : ℕ
  qudit_dimension : ℕ
  nodes : List SiteNode
  bonds : List ℕ
  maxBondDims : List ℕ

/-- `MPS.__init__` lines 89–96: `[d ** (i+1) for i in range(nqudits // 2)]`,
then the list is extended with its own reverse, and when `nqudits` is even
the first occurrence of `d ** (nqudits // 2)` is removed (`list.remove`). -/
def mbdList (n d : ℕ) : List ℕ :=
  let half := (List.range (n / 2)).map fun i => d ^ (i + 1)
  let full := half ++ half.reverse
  if n % 2 = 0 then full.erase (d ^ (n / 2)) else full

/-- The uniformised tensor of every node built by `MPS.__init__`:
`[[1], [0], ...]` (boundary, shape `(d, 1)`) and `[[[1]], [[0]], ...]`
(interior, shape `(d, 1, 1)`): the entry is 1 exactly at physical index 0
(the only virtual index being 0).  The qudit dimension only bounds the
physical axis; out-of-range entries are extended by zero. -/
def e0Tensor : ℕ → ℕ → ℕ → ℂ := fun p l r =>
  if p = 0 ∧ l = 0 ∧ r = 0 then 1 else 0

/-- The node list built by `MPS.__init__`: interior nodes named
`"q1" … "q(n-2)"`, with the left boundary node `"q0"` inserted in front and
the right boundary node `"q(n-1)"` appended. -/
def freshNodes (n : ℕ) : List SiteNode :=
  [⟨"q" ++ Nat.repr 0, e0Tensor⟩]
    ++ ((List.range (n - 2)).map fun x => ⟨"q" ++ Nat.repr (x + 1), e0Tensor⟩)
    ++ [⟨"q" ++ Nat.repr (n - 1), e0Tensor⟩]

/-- The chain built by `MPS.__init__` once the `nqudits < 2` guard has been
passed: all `|0⟩` sites, every connected edge of dimension 1, and the
`_max_bond_dimensions` list of lines 89–96. -/
def freshMPS (n d : ℕ) : MPS :=
  { nqudits := n
    qudit_dimension := d
    nodes := freshNodes n
    bonds := List.replicate (n - 1) 1
    maxBondDims := mbdList n d }

/-- `MPS.__init__`: raises `ValueError` when `nqudits < 2` (and only then —
the qudit dimension is not validated). -/
def MPS.init (nqudits qudit_dimension : ℕ) : Except MPSError MPS :=
  if nqudits < 2 then .error .invalidShape
  else .ok (freshMPS nqudits qudit_dimension)

/-- `MPS.is_valid`: at least two tensors, every tensor has exactly one
dangling (physical) edge, boundary tensors have one connected edge and
interior tensors two, and consecutive tensors are connected.  In this chain
embedding the per-node edge counts and the pairwise connectivity amount to:
there are at least two nodes and there is exactly one connected bond per
adjacent pair (`bonds` has one entry per pair). -/
def MPS.is_valid (m : MPS) : Bool :=
  decide (2 ≤ m.nodes.length) && decide (m.bonds.length + 1 = m.nodes.length)

/-- Resolution of a Python list subscript `l[i]` on a list of length `len`:
indices in `[0, len)` are used directly, indices in `[-len, 0)` count from
the right, anything else raises `IndexError`. -/
def pyResolve (len : ℕ) (i : ℤ) : Except MPSError ℕ :=
  if 0 ≤ i then
    if i < (len : ℤ) then .ok i.toNat else .error .indexError
  else
    if 0 ≤ i + (len : ℤ) then .ok (i + (len : ℤ)).toNat else .error .indexError

/-- `MPS.get_bond_dimension_of`: validity check, then the guard
`index >= self._nqudits`, then the node at `index` and the node at
`index + 1` are fetched by plain list subscripts (`get_node`, which wraps
negative indices and raises `IndexError` out of range), `tn.check_connected`
raises `ValueError` unless the two fetched nodes share an edge (they do
exactly when their chain positions are adjacent), and the dimension of the
shared edge is returned. -/

theorem except_ok_bind {ε α β : Type} (a : α) (f : α → Except ε β) :
    (Except.ok a >>= f) = f a := rfl

theorem except_error_bind {ε α β : Type} (e : ε) (f : α → Except ε β) :
    (Except.error e >>= f : Except ε β) = .error e := rfl

/-- `tn.check_connected` followed by `tn.get_shared_edges(...).pop()`: the
two fetched nodes share an edge exactly when their chain positions are
adjacent, in which case the dimension of the shared bond (the one at the
smaller position) is returned; otherwise `check_connected` raises
`ValueError`. -/
def checkConnectedBond (m : MPS) (li ri : ℕ) : Except MPSError ℕ :=
  if ((li : ℤ) - (ri : ℤ)).natAbs = 1 then .ok (m.bonds.getD (min li ri) 0)
  else .error .notConnected

def MPS.get_bond_dimension_of (m : MPS) (index : ℤ) : Except MPSError ℕ :=
  if m.is_valid = false then .error .invalidMPS
  else if (m.nqudits : ℤ) ≤ index then .error .indexOutOfRange
  else
    pyResolve m.nodes.length index >>= fun li =>
    pyResolve m.nodes.length (index + 1) >>= fun ri =>
    checkConnectedBond m li ri

/-- `MPS.get_max_bond_dimension_of`: the guard `index >= self._nqudits`,
then a plain Python subscript into `self._max_bond_dimensions` (negative
indices count from the right, per the docstring). -/
def MPS.get_max_bond_dimension_of (m : MPS) (index : ℤ) : Except MPSError ℕ :=
  if (m.nqudits : ℤ) ≤ index then .error .indexOutOfRange
  else
    match pyResolve m.maxBondDims.length index with
    | .ok p => .ok (m.maxBondDims.getD p 0)
    | .error e => .error e

/-- Left-to-right contraction of the chain at fixed physical indices `ps`:
`v` is the partial contraction, a vector over the bond entering the next
site (of dimension `dim`); each step sums that bond against the next site
tensor, producing a vector over that site's right bond (the head of the
remaining `bonds` list, the phantom dimension 1 at the right boundary).
This is the contraction order of `MPS.wavefunction` (pop the first node,
then `tn.contract_between` with each following node in turn). -/
noncomputable def contractChain : ℕ → (ℕ → ℂ) → List SiteNode → List ℕ → List ℕ → ℂ
  | _, v, [], _, _ => v 0
  | dim, v, node :: ns, bnds, ps =>
      match ps with
      | [] => 0
      | p :: ps' =>
          contractChain (bnds.headD 1)
            (fun r => ∑ l ∈ Finset.range dim, v l * node.tensor p l r)
            ns bnds.tail ps'

theorem contractChain_nil (dim : ℕ) (v : ℕ → ℂ) (bnds ps : List ℕ) :
    contractChain dim v [] bnds ps = v 0 := rfl

theorem contractChain_cons (dim : ℕ) (v : ℕ → ℂ) (node : SiteNode)
    (ns : List SiteNode) (bnds : List ℕ) (p : ℕ) (ps : List ℕ) :
    contractChain dim v (node :: ns) bnds (p :: ps)
      = contractChain (bnds.headD 1)
          (fun r => ∑ l ∈ Finset.range dim, v l * node.tensor p l r)
          ns bnds.tail ps := rfl

/-- The base-`d` digits of `k`, most significant first, over `n` digits:
`np.reshape` of the contracted tensor is row-major, so the linear index `k`
has site 0 as its most significant digit. -/
def basisDigits (d n k : ℕ) : List ℕ :=
  (List.range n).map fun i => k / d ^ (n - 1 - i) % d

/-- The amplitude of the chain at computational-basis index `k`: the full
contraction of the chain with physical indices set to the digits of `k`. -/
noncomputable def MPS.amp (m : MPS) (k : ℕ) : ℂ :=
  contractChain 1 (fun l => if l = 0 then 1 else 0) m.nodes m.bonds
    (basisDigits m.qudit_dimension m.nqudits k)

/-- `MPS.wavefunction`: validity check, then the whole chain is contracted
left to right and reshaped into a vector of length
`qudit_dimension ** nqudits` (the second check of the source, that all edges
of the contracted node are dangling, always passes for a valid chain). -/
noncomputable def MPS.wavefunction (m : MPS) : Except MPSError (List ℂ) :=
  if m.is_valid = false then .error .invalidMPS
  else .ok ((List.range (m.qudit_dimension ^ m.nqudits)).map fun k => m.amp k)

/-- `MPS.norm` lines 238–259: the chain is contracted against its complex
conjugate over all physical edges, which yields the scalar
`∑ₖ ψ(k) * conj (ψ(k))`; the source then asserts the imaginary part is ≈ 0
and returns `abs` of the scalar.  Note there is no square root. -/
noncomputable def MPS.norm (m : MPS) : ℝ :=
  Complex.abs (∑ k ∈ Finset.range (m.qudit_dimension ^ m.nqudits),
    m.amp k * (starRingEnd ℂ) (m.amp k))

/-- A single-qudit gate: a tensor with two dangling edges (edge 0 the input,
edge 1 the output) and no connected edges.  The edge-count check of
`apply_one_qubit_gate` holds for every value of this type. -/
def Gate1 : Type := ℕ → ℕ → ℂ

/-- A two-qudit gate: a tensor with four dangling edges (edges 0,1 inputs
for the two sites, edges 2,3 the corresponding outputs) and no connected
edges.  The edge-count check of `apply_two_qubit_gate` holds for every
value of this type. -/
def Gate2 : Type := ℕ → ℕ → ℕ → ℕ → ℂ

/-- Contraction of the site tensor with a one-qudit gate: the node's
physical (dangling) edge is connected to gate edge 0 and contracted, gate
edge 1 becoming the new physical edge; the node's name is preserved
(`tn.contract(connected, name=self._nodes[index].name)`). -/
noncomputable def applyGateToNode (g : Gate1) (d : ℕ) (node : SiteNode) : SiteNode :=
  ⟨node.name, fun p l r => ∑ q ∈ Finset.range d, node.tensor q l r * g q p⟩

/-- The in-place update performed by `apply_one_qubit_gate` once its checks
have passed: node `i` is replaced by its contraction with the gate. -/
noncomputable def oneQubitUpdate (m : MPS) (g : Gate1) (i : ℕ) : MPS :=
  let newNode := applyGateToNode g m.qudit_dimension (m.nodes.getD i blankNode)
  { m with nodes := m.nodes.set i newNode }

/-- `MPS.apply_one_qubit_gate`: validity check, bounds check
(`index not in range(self._nqudits)` — negative indices are rejected here),
gate edge-count check (structural under `Gate1`), then node `index` is
replaced by its contraction with the gate.  Bond dimensions are untouched. -/
noncomputable def MPS.apply_one_qubit_gate (m : MPS) (g : Gate1) (index : ℤ) :
    Except MPSError MPS :=
  if m.is_valid = false then .error .invalidMPS
  else if ¬ (0 ≤ index ∧ index < (m.nqudits : ℤ)) then .error .indexOutOfRange
  else .ok (oneQubitUpdate m g index.toNat)

/-- `MPS.apply_one_qubit_gate_to_all`: `for i in range(self._nqudits)`,
apply the gate to site `i` (an exception aborts the loop, modelled by the
`Except` monad). -/
noncomputable def MPS.apply_one_qubit_gate_to_all (m : MPS) (g : Gate1) :
    Except MPSError MPS :=
  (List.range m.nqudits).foldlM
    (fun s (i : ℕ) => s.apply_one_qubit_gate g (i : ℤ)) m

/-- The keyword arguments recognised by `MPS.apply_two_qubit_gate`
(`keep_left_canonical`, `maxsvals`, `fraction`); a `none` field models an
absent key. -/
structure TwoQubitOptions where
  keep_left_canonical : Option Bool := none
  maxsvals : Option ℤ := none
  fraction : Option ℚ := none

/-- Python's `round` on a real value: round half to even (banker's
rounding), as used in `int(round(fraction * max_bond_dimension))`. -/
def pyRound (q : ℚ) : ℤ :=
  if q - ⌊q⌋ < 1 / 2 then ⌊q⌋
  else if 1 / 2 < q - ⌊q⌋ then ⌊q⌋ + 1
  else if ⌊q⌋ % 2 = 0 then ⌊q⌋ else ⌊q⌋ + 1

/-- Tensor placeholder for the two factors produced by
`tn.split_node_full_svd`.  The SVD kernel is an external collaborator
(spec §1, §4.2: "numerical linear-algebra primitives … assumed available");
only the shapes of its factors — hence the new bond dimension — and the
restored node names are modelled, not the factor entries.  No claim
depends on post-SVD tensor values. -/
def svdTensor : ℕ → ℕ → ℕ → ℂ := fun _ _ _ => 0

/-- The number of singular values kept by `tn.split_node_full_svd` on a
matrix of dimensions `dL × dR`: the thin SVD yields `min dL dR` values, and
`max_singular_values` (when not `None`) caps that count. -/
def keptSvals (dL dR : ℕ) (cap : Option ℤ) : ℕ :=
  match cap with
  | none => min dL dR
  | some c => min (min dL dR) c.toNat

/-- The state update of a successful `apply_two_qubit_gate` on adjacent
sites `i < j`, once the singular-value cap `cap` has been resolved from the
options: the bond between `i` and `j` becomes the number of kept singular
values of the SVD between `left_edges` (gate output for site `i`, plus the
bond to site `i - 1` when `i` is not the left boundary — dimension
`d · bonds[i-1]`) and `right_edges` (gate output for site `j`, plus the
bond to site `j + 1` when `j` is not the right boundary — dimension
`d · bonds[j]`), and the two sites are replaced by the SVD factors (U and
S·V†, or U·S and V†, by `keep_left_canonical`) carrying the old node
names. -/
noncomputable def twoQubitUpdate (m : MPS) (i j : ℕ) (cap : Option ℤ) : MPS :=
  let dimL := m.qudit_dimension * (if i = 0 then 1 else m.bonds.getD (i - 1) 1)
  let dimR := m.qudit_dimension *
    (if j = m.nqudits - 1 then 1 else m.bonds.getD j 1)
  let leftNode : SiteNode := ⟨(m.nodes.getD i blankNode).name, svdTensor⟩
  let rightNode : SiteNode := ⟨(m.nodes.getD j blankNode).name, svdTensor⟩
  { m with
    bonds := m.bonds.set i (keptSvals dimL dimR cap)
    nodes := (m.nodes.set i leftNode).set j rightNode }

/-- `MPS.apply_two_qubit_gate`, lines 327–508.  Checks in source order:
validity; both indices in `range(nqudits)`; indices not identical; indices
adjacent (`abs(indexA - indexB) == 1`); gate edge counts (structural under
`Gate2`); `indexA < indexB` (else "IndexA must be less than IndexB.").
Then the options: supplying both `fraction` and `maxsvals` raises; a
`fraction` outside `[0, 1]` raises; otherwise the singular-value cap is
`int(round(fraction * self.get_max_bond_dimension_of(min(indexA, indexB))))`,
overridden by `maxsvals` when that key is present, and absent when neither
key is given.  The two sites and the gate are contracted into one node and
re-split by SVD between `left_edges` (gate output for site `indexA`, plus
the bond to site `indexA - 1` if any) and `right_edges` (gate output for
site `indexB`, plus the bond to site `indexB + 1` if any); the thin SVD
keeps `min` of the two matrix dimensions singular values, further capped by
`max_singular_values`.  The new bond dimension is the number of kept
singular values; the two new nodes take over the old node names.
(`keep_left_canonical` only directs which factor absorbs `S`; the appends
to `_infidelities` / `_fidelities` are omitted as unobserved by claims.) -/
noncomputable def MPS.apply_two_qubit_gate (m : MPS) (_gate : Gate2)
    (indexA indexB : ℤ) (opts : TwoQubitOptions) : Except MPSError MPS :=
  if m.is_valid = false then .error .invalidMPS
  else if ¬ (0 ≤ indexA ∧ indexA < (m.nqudits : ℤ) ∧
             0 ≤ indexB ∧ indexB < (m.nqudits : ℤ)) then .error .indexOutOfRange
  else if indexA = indexB then .error .identicalIndices
  else if (indexA - indexB).natAbs ≠ 1 then .error .nonAdjacent
  else if indexA < indexB then
    -- kwargs handling, lines 454–479: conflicting keys raise; a present
    -- `fraction` must lie in [0, 1] and yields the cap
    -- `int(round(fraction * get_max_bond_dimension_of(min(indexA, indexB))))`;
    -- a present `maxsvals` is the cap; with neither key there is no cap.
    match opts.fraction, opts.maxsvals with
    | some _, some _ => .error .conflictingOptions
    | some f, none =>
        if 0 ≤ f ∧ f ≤ 1 then
          .ok (twoQubitUpdate m indexA.toNat indexB.toNat
            (some (pyRound (f * (m.maxBondDims.getD indexA.toNat 0 : ℚ)))))
        else .error .invalidOption
    | none, some v => .ok (twoQubitUpdate m indexA.toNat indexB.toNat (some v))
    | none, none => .ok (twoQubitUpdate m indexA.toNat indexB.toNat none)
  else .error .indexOrder

/-- `MPS.swap_until_adjacent` is not needed by any claim theorem directly,
but the dispatcher claim refers to it; its guards are modelled for
completeness: `left_index >= right_index` raises, out-of-range raises,
`left_index == right_index - 1` is a no-op.  The loop body applies SWAP
gates; its effect is outside the claims' scope and is not modelled. -/
def MPS.swap_until_adjacent_guard (m : MPS) (left_index right_index : ℤ) :
    Except MPSError Unit :=
  if left_index ≥ right_index then .error .indexOrder
  else if left_index < 0 ∨ right_index ≥ (m.nqudits : ℤ) then .error .indexOutOfRange
  else .ok ()

/-- The gate payload of an MPS operation: a one-qudit or a two-qudit gate
tensor.  Modelled from the spec: `mpsim/mpsim_cirq/circuits.py` (class
`MPSOperation`) is imported by `core.py` but is not under `src/`; spec §4.6
says an operation carries a tensor, its arity (1 or 2) and the target
indices. -/
inductive GateTensor where
  | one (g : Gate1)
  | two (g : Gate2)

/-- Modelled from the spec: `MPSOperation` of the absent
`mpsim/mpsim_cirq/circuits.py` — "An operation carries: a tensor (the
gate), its arity (1 or 2), an ordered list of target qudit indices, a
validity predicate" (§4.6). -/
structure MPSOperation where
  node : GateTensor
  qudit_indices : List ℤ

/-- Modelled from the spec (§4.6): the validity predicate — the arity
matches the tensor's edge count and the indices are distinct for arity 2
(in-bounds is re-checked by the gate engine, which does not expose the
chain length to the operation object). -/
def MPSOperation.is_valid (op : MPSOperation) : Bool :=
  match op.node, op.qudit_indices with
  | .one _, [_] => true
  | .two _, [a, b] => decide (a ≠ b)
  | _, _ => false

/-- Modelled from the spec (§4.6): arity-1 test. -/
def MPSOperation.is_single_qudit_operation (op : MPSOperation) : Bool :=
  match op.node, op.qudit_indices with
  | .one _, [_] => true
  | _, _ => false

/-- Modelled from the spec (§4.6): arity-2 test. -/
def MPSOperation.is_two_qudit_operation (op : MPSOperation) : Bool :=
  match op.node, op.qudit_indices with
  | .two _, [_, _] => true
  | _, _ => false

/-- `MPS.apply_mps_operation`, lines 510–535: validity check on the
operation, then a single-qudit operation goes to `apply_one_qubit_gate` and
a two-qudit operation goes directly to `apply_two_qubit_gate` (there is no
call to the swap router here); anything else raises "Only one-qudit and
two-qudit gates are currently supported." -/
noncomputable def MPS.apply_mps_operation (m : MPS) (op : MPSOperation)
    (opts : TwoQubitOptions) : Except MPSError MPS :=
  if op.is_valid = false then .error .invalidOperation
  else if op.is_single_qudit_operation then
    match op.node, op.qudit_indices with
    | .one g, [a] => m.apply_one_qubit_gate g a
    | _, _ => .error .invalidOperation
  else if op.is_two_qudit_operation then
    match op.node, op.qudit_indices with
    | .two g, [a, b] => m.apply_two_qubit_gate g a b opts
    | _, _ => .error .invalidOperation
  else .error .unsupportedArity

/-- The Pauli-X matrix `[[0, 1], [1, 0]]` of the gate library
(`xgate()`; the gate library `mpsim/gates.py` is imported by `core.py` but
is not under `src/` — the matrix is taken from the sibling `mps/gates.py`
in the repository and from the spec, which fixes gate edge conventions in
§6). -/
def xmatrix : Gate1 := fun a b =>
  if (a = 0 ∧ b = 1) ∨ (a = 1 ∧ b = 0) then 1 else 0

/-- The Hadamard matrix `1/√2 · [[1, 1], [1, -1]]` (`hgate()`, same
provenance as `xmatrix`). -/
noncomputable def hmatrix : Gate1 := fun a b =>
  if a ≤ 1 ∧ b ≤ 1 then
    (if a = 1 ∧ b = 1 then -1 else 1) * (Real.sqrt 2)⁻¹
  else 0

/-- Modelled from the spec: `rgate(seed, angle_scale)` of the absent
`mpsim/gates.py` — "gate libraries … treated as sources of opaque tensor
operators with declared edge semantics" (§1); "Random gate generators
accept an explicit seed" (§5).  Only the arity (a valid one-qudit gate) and
the dependence on `seed` and `angle_scale` matter to the claims; the
entries are fixed to the identity for definiteness. -/
def rgate (_seed : ℕ) (_angle_scale : ℚ) : Gate1 := fun a b =>
  if a = b ∧ a < 2 then 1 else 0

/-- `MPS.x`: for `index == -1` the X gate is applied to all qubits via
`apply_one_qubit_gate_to_all`, otherwise to the single indexed qubit. -/
noncomputable def MPS.x (m : MPS) (index : ℤ) : Except MPSError MPS :=
  if index = -1 then m.apply_one_qubit_gate_to_all xmatrix
  else m.apply_one_qubit_gate xmatrix index

/-- `MPS.h`: for `index == -1` the Hadamard gate is applied to all qubits
via `apply_one_qubit_gate_to_all`, otherwise to the single indexed qubit. -/
noncomputable def MPS.h (m : MPS) (index : ℤ) : Except MPSError MPS :=
  if index = -1 then m.apply_one_qubit_gate_to_all hmatrix
  else m.apply_one_qubit_gate hmatrix index

/-- `MPS.r`: for `index == -1` the loop `for i in range(self._nqudits)`
applies `rgate(seed, angle_scale)` to each site in order (with a seed the
generator is re-seeded on each call, so each site receives the same gate);
otherwise the gate is applied to the single indexed qubit. -/
noncomputable def MPS.r (m : MPS) (seed : ℕ) (angle_scale : ℚ) (index : ℤ) :
    Except MPSError MPS :=
  if index = -1 then
    (List.range m.nqudits).foldlM
      (fun s (i : ℕ) => s.apply_one_qubit_gate (rgate seed angle_scale) (i : ℤ)) m
  else m.apply_one_qubit_gate (rgate seed angle_scale) index

/-- The facts `__init__` establishes about the bookkeeping fields and that
every mutator preserves: the counters agree with the node list, there is
one bond per adjacent pair, `_max_bond_dimensions` is the list of lines
89–96, and the chain is a genuine (`N ≥ 2`, `d ≥ 2`) qudit chain. -/
def MPS.WellFormed (m : MPS) : Prop :=
  m.nqudits = m.nodes.length ∧
  m.bonds.length + 1 = m.nqudits ∧
  m.maxBondDims = mbdList m.nqudits m.qudit_dimension ∧
  2 ≤ m.nqudits ∧ 2 ≤ m.qudit_dimension

/-! ## The `_max_bond_dimensions` list -/

theorem mbdList_even (n d : ℕ) (hn : 2 ≤ n) (hd : 2 ≤ d) (hpar : n % 2 = 0) :
    mbdList n d = ((List.range (n / 2 - 1)).map fun i => d ^ (i + 1))
      ++ ((List.range (n / 2)).map fun i => d ^ (i + 1)).reverse := by
  unfold mbdList
  rw [if_pos hpar]
  have hh : 1 ≤ n / 2 := by omega
  have hpow : d ^ (n / 2 - 1 + 1) = d ^ (n / 2) := by
    congr 1
    omega
  have hrange : (List.range (n / 2)).map (fun i => d ^ (i + 1))
      = (List.range (n / 2 - 1)).map (fun i => d ^ (i + 1)) ++ [d ^ (n / 2)] := by
    nth_rewrite 1 [show n / 2 = (n / 2 - 1) + 1 from by omega]
    rw [List.range_succ, List.map_append, List.map_cons, List.map_nil, hpow]
  have hnotmem : d ^ (n / 2) ∉ (List.range (n / 2 - 1)).map fun i => d ^ (i + 1) := by
    intro hmem
    rcases List.mem_map.mp hmem with ⟨x, hx, hfx⟩
    have hx' := List.mem_range.mp hx
    have := Nat.pow_right_injective hd hfx
    omega
  rw [hrange, List.append_assoc, List.erase_append_right _ hnotmem,
      List.singleton_append, List.erase_cons_head]

theorem mbdList_length (n d : ℕ) (hn : 2 ≤ n) (hd : 2 ≤ d) :
    (mbdList n d).length = n - 1 := by
  rcases Nat.even_or_odd n with he | ho
  · have hpar : n % 2 = 0 := Nat.even_iff.mp he
    rw [mbdList_even n d hn hd hpar]
    simp only [List.length_append, List.length_map, List.length_range,
      List.length_reverse]
    omega
  · have hpar : n % 2 = 1 := Nat.odd_iff.mp ho
    unfold mbdList
    rw [if_neg (by omega)]
    simp only [List.length_append, List.length_map, List.length_range,
      List.length_reverse]
    omega

theorem mbdList_getD (n d i : ℕ) (hn : 2 ≤ n) (hd : 2 ≤ d) (hi : i < n - 1) :
    (mbdList n d).getD i 0 = min (d ^ (i + 1)) (d ^ (n - i - 1)) := by
  have hlen : (mbdList n d).length = n - 1 := mbdList_length n d hn hd
  have hilen : i < (mbdList n d).length := by omega
  rw [List.getD_eq_getElem _ _ hilen]
  rcases Nat.even_or_odd n with he | ho
  · -- n even, say n = 2h; the element at h-1 was removed by `list.remove`
    have hpar : n % 2 = 0 := Nat.even_iff.mp he
    have h2 : n / 2 * 2 = n := by omega
    have heq := mbdList_even n d hn hd hpar
    rcases Nat.lt_or_ge i (n / 2 - 1) with hcase | hcase
    · have : (mbdList n d)[i] = d ^ (i + 1) := by
        simp only [heq]
        rw [List.getElem_append_left (by simpa using hcase)]
        simp
      rw [this, min_eq_left]
      exact Nat.pow_le_pow_right (by omega) (by omega)
    · have hbound : i - (n / 2 - 1) < (((List.range (n / 2)).map
          fun i => d ^ (i + 1)).reverse).length := by
        simp only [List.length_reverse, List.length_map, List.length_range]
        omega
      have : (mbdList n d)[i] = d ^ (n - i - 1) := by
        simp only [heq]
        rw [List.getElem_append_right (by simpa using hcase)]
        simp only [List.length_map, List.length_range, List.getElem_reverse,
          List.getElem_map, List.getElem_range]
        congr 1
        omega
      rw [this, min_eq_right]
      exact Nat.pow_le_pow_right (by omega) (by omega)
  · -- n odd, say n = 2h + 1; nothing was removed
    have hpar : n % 2 = 1 := Nat.odd_iff.mp ho
    have h2 : n / 2 * 2 + 1 = n := by omega
    have heq : mbdList n d = ((List.range (n / 2)).map fun i => d ^ (i + 1))
        ++ ((List.range (n / 2)).map fun i => d ^ (i + 1)).reverse := by
      unfold mbdList
      rw [if_neg (by omega)]
    rcases Nat.lt_or_ge i (n / 2) with hcase | hcase
    · have : (mbdList n d)[i] = d ^ (i + 1) := by
        simp only [heq]
        rw [List.getElem_append_left (by simpa using hcase)]
        simp
      rw [this, min_eq_left]
      exact Nat.pow_le_pow_right (by omega) (by omega)
    · have : (mbdList n d)[i] = d ^ (n - i - 1) := by
        simp only [heq]
        rw [List.getElem_append_right (by simpa using hcase)]
        simp only [List.length_map, List.length_range, List.getElem_reverse,
          List.getElem_map, List.getElem_range]
        congr 1
        omega
      rw [this, min_eq_right]
      exact Nat.pow_le_pow_right (by omega) (by omega)

/-! ## The freshly constructed chain -/

theorem freshNodes_length (n : ℕ) (hn : 2 ≤ n) : (freshNodes n).length = n := by
  simp only [freshNodes, List.length_append, List.length_map, List.length_range,
    List.length_cons, List.length_nil]
  omega

theorem freshNodes_tensor (n : ℕ) :
    ∀ node ∈ freshNodes n, node.tensor = e0Tensor := by
  intro node hmem
  simp only [freshNodes, List.mem_append, List.mem_map, List.mem_singleton,
    List.mem_cons, List.not_mem_nil, or_false] at hmem
  rcases hmem with (h | ⟨x, _, h⟩) | h <;> subst h <;> rfl

theorem freshMPS_is_valid (n d : ℕ) (hn : 2 ≤ n) :
    (freshMPS n d).is_valid = true := by
  simp only [MPS.is_valid, freshMPS, Bool.and_eq_true, decide_eq_true_eq,
    List.length_replicate, freshNodes_length n hn]
  omega

/-- Contracting a chain of all-`|0⟩` site tensors along bonds of dimension 1
picks out the product of Kronecker deltas: the result is the accumulated
scalar `c` when every remaining physical index is 0, and 0 otherwise. -/
theorem contractChain_e0 :
    ∀ (ns : List SiteNode) (bnds ps : List ℕ) (c : ℂ),
      (∀ node ∈ ns, node.tensor = e0Tensor) → (∀ b ∈ bnds, b = 1) →
      ns.length = ps.length →
      contractChain 1 (fun l => if l = 0 then c else 0) ns bnds ps
        = if ∀ p ∈ ps, p = 0 then c else 0 := by
  intro ns
  induction ns with
  | nil =>
    intro bnds ps c _ _ hlen
    have : ps = [] := by
      cases ps
      · rfl
      · simp at hlen
    subst this
    simp [contractChain]
  | cons node ns ih =>
    intro bnds ps c hten hb hlen
    cases ps with
    | nil => simp at hlen
    | cons p ps' =>
      have hhead : bnds.headD 1 = 1 := by
        cases bnds with
        | nil => rfl
        | cons b bs => exact hb b (List.mem_cons_self _ _)
      have htail : ∀ b ∈ bnds.tail, b = 1 := fun b hmem =>
        hb b (List.mem_of_mem_tail hmem)
      have hnode : node.tensor = e0Tensor := hten node (List.mem_cons_self _ _)
      have hfun : (fun r => ∑ l ∈ Finset.range 1,
            (if l = 0 then c else 0) * node.tensor p l r)
          = fun l => if l = 0 then (if p = 0 then c else 0) else 0 := by
        funext r
        rw [Finset.sum_range_one, hnode]
        simp only [e0Tensor, if_pos rfl]
        by_cases hp : p = 0 <;> by_cases hr : r = 0 <;> simp [hp, hr]
      rw [show contractChain 1 (fun l => if l = 0 then c else 0)
            (node :: ns) bnds (p :: ps')
          = contractChain (bnds.headD 1)
              (fun r => ∑ l ∈ Finset.range 1,
                (if l = 0 then c else 0) * node.tensor p l r)
              ns bnds.tail ps' from rfl,
        hhead, hfun,
        ih bnds.tail ps' _ (fun x hx => hten x (List.mem_cons_of_mem node hx))
          htail (by simpa using hlen)]
      by_cases hp : p = 0
      · simp [hp]
      · simp [hp]

theorem freshMPS_amp (n d k : ℕ) (hn : 2 ≤ n) :
    (freshMPS n d).amp k
      = if ∀ p ∈ basisDigits d n k, p = 0 then 1 else 0 := by
  unfold MPS.amp
  exact contractChain_e0 (freshNodes n) _ _ 1 (freshNodes_tensor n)
    (fun b hb => List.eq_of_mem_replicate hb)
    (by simp [freshMPS, basisDigits, freshNodes_length n hn])

theorem basisDigits_of_zero (d n : ℕ) : ∀ p ∈ basisDigits d n 0, p = 0 := by
  intro p hp
  simp only [basisDigits, List.mem_map, List.mem_range] at hp
  rcases hp with ⟨i, _, h⟩
  simp [← h]

/-- A natural below `d ^ n` all of whose base-`d` digits vanish is zero. -/
theorem eq_zero_of_digits_zero (d : ℕ) :
    ∀ n k, k < d ^ n → (∀ j < n, k / d ^ j % d = 0) → k = 0 := by
  intro n
  induction n with
  | zero =>
    intro k hk _
    simpa using Nat.lt_one_iff.mp (by simpa using hk)
  | succ n ih =>
    intro k hk h
    have hd : 0 < d := by
      rcases Nat.eq_zero_or_pos d with h0 | h0
      · subst h0
        simp at hk
      · exact h0
    have hmod : k % d = 0 := by simpa using h 0 (by omega)
    have hdiv : k / d < d ^ n := by
      rw [Nat.div_lt_iff_lt_mul hd]
      calc k < d ^ (n + 1) := hk
        _ = d ^ n * d := by rw [pow_succ]
    have hdigits : ∀ j < n, (k / d) / d ^ j % d = 0 := by
      intro j hj
      rw [Nat.div_div_eq_div_mul, show d * d ^ j = d ^ (j + 1) by
        rw [pow_succ, Nat.mul_comm]]
      exact h (j + 1) (by omega)
    have hzero := ih (k / d) hdiv hdigits
    have hsum := Nat.div_add_mod k d
    rw [hzero, hmod] at hsum
    simpa using hsum.symm

theorem basisDigits_all_zero_iff (d n k : ℕ) (hk : k < d ^ n) :
    (∀ p ∈ basisDigits d n k, p = 0) ↔ k = 0 := by
  constructor
  · intro h
    refine eq_zero_of_digits_zero d n k hk ?_
    intro j hj
    have := h (k / d ^ (n - 1 - (n - 1 - j)) % d) (by
      simp only [basisDigits, List.mem_map, List.mem_range]
      exact ⟨n - 1 - j, by omega, rfl⟩)
    rwa [show n - 1 - (n - 1 - j) = j by omega] at this
  · intro h
    subst h
    exact basisDigits_of_zero d n

/-- The normal path of `get_bond_dimension_of`: a valid chain queried with a
natural index having a right neighbour returns the stored bond dimension. -/
theorem get_bond_dimension_of_nat (m : MPS) (i : ℕ) (hv : m.is_valid = true)
    (hn : m.nqudits = m.nodes.length) (hi : i + 1 < m.nqudits) :
    m.get_bond_dimension_of (i : ℤ) = .ok (m.bonds.getD i 0) := by
  unfold MPS.get_bond_dimension_of
  rw [hv, if_neg (by simp), if_neg (by omega)]
  have h1 : pyResolve m.nodes.length (i : ℤ) = .ok i := by
    unfold pyResolve
    rw [if_pos (by omega), if_pos (by omega)]
    simp
  have h2 : pyResolve m.nodes.length ((i : ℤ) + 1) = .ok (i + 1) := by
    unfold pyResolve
    rw [if_pos (by omega), if_pos (by omega)]
    norm_num
  rw [h1, except_ok_bind, h2, except_ok_bind]
  unfold checkConnectedBond
  rw [if_pos (by omega), min_eq_left (by omega)]

theorem freshMPS_amp_eq (n d k : ℕ) (hn : 2 ≤ n) (hk : k < d ^ n) :
    (freshMPS n d).amp k = if k = 0 then 1 else 0 := by
  rw [freshMPS_amp n d k hn]
  by_cases h : k = 0
  · rw [if_pos ((basisDigits_all_zero_iff d n k hk).mpr h), if_pos h]
  · rw [if_neg (fun hall => h ((basisDigits_all_zero_iff d n k hk).mp hall)),
      if_neg h]

/-- C3: A freshly constructed `MPS(N, d)` with `N ≥ 2`, `d ≥ 2` is produced
without error, satisfies `is_valid()`, has norm 1, has every virtual bond
dimension equal to 1, and its wavefunction is the length-`d^N` basis vector
with a 1 in position 0 and 0 elsewhere. -/
theorem claim_C3 (n d : ℕ) (hn : 2 ≤ n) (hd : 2 ≤ d) :
    MPS.init n d = .ok (freshMPS n d) ∧
    (freshMPS n d).is_valid = true ∧
    (freshMPS n d).norm = 1 ∧
    (∀ i : ℕ, i < n - 1 →
      (freshMPS n d).get_bond_dimension_of (i : ℤ) = .ok 1) ∧
    ∃ l : List ℂ, (freshMPS n d).wavefunction = .ok l ∧
      l.length = d ^ n ∧
      ∀ k < d ^ n, l.getD k 0 = if k = 0 then 1 else 0 := by
  have hval := freshMPS_is_valid n d hn
  have hpos : 0 < d ^ n := pow_pos (by omega) n
  refine ⟨?_, hval, ?_, ?_, ?_⟩
  · unfold MPS.init
    rw [if_neg (by omega)]
  · unfold MPS.norm
    have hsum : ∑ k ∈ Finset.range ((freshMPS n d).qudit_dimension
          ^ (freshMPS n d).nqudits),
        (freshMPS n d).amp k * (starRingEnd ℂ) ((freshMPS n d).amp k)
        = ∑ k ∈ Finset.range (d ^ n), if k = 0 then (1 : ℂ) else 0 := by
      refine Finset.sum_congr rfl ?_
      intro k hk
      rw [freshMPS_amp_eq n d k hn (by simpa using hk)]
      by_cases h : k = 0 <;> simp [h]
    rw [show (freshMPS n d).qudit_dimension ^ (freshMPS n d).nqudits
        = d ^ n from rfl] at hsum ⊢
    rw [hsum, Finset.sum_ite_eq' (Finset.range (d ^ n)) 0 (fun _ => (1 : ℂ)),
      if_pos (Finset.mem_range.mpr hpos)]
    simp
  · intro i hi
    rw [get_bond_dimension_of_nat (freshMPS n d) i hval
        (by simp [freshMPS, freshNodes_length n hn])
        (by simpa [freshMPS] using by omega)]
    congr 1
    rw [show (freshMPS n d).bonds = List.replicate (n - 1) 1 from rfl,
      List.getD_eq_getElem _ _ (by simpa using hi), List.getElem_replicate]
  · refine ⟨(List.range (d ^ n)).map fun k => (freshMPS n d).amp k, ?_, ?_, ?_⟩
    · unfold MPS.wavefunction
      rw [if_neg (by simp [hval])]
      rfl
    · simp
    · intro k hk
      rw [List.getD_eq_getElem _ _ (by simpa using hk)]
      simp only [List.getElem_map, List.getElem_range]
      exact freshMPS_amp_eq n d k hn hk

/-- C3 witness at the concrete instance `N = 3`, `d = 2`. -/
theorem claim_C3_witness :
    MPS.init 3 2 = .ok (freshMPS 3 2) ∧
    (freshMPS 3 2).is_valid = true ∧
    (freshMPS 3 2).norm = 1 ∧
    (∀ i : ℕ, i < 3 - 1 →
      (freshMPS 3 2).get_bond_dimension_of (i : ℤ) = .ok 1) ∧
    ∃ l : List ℂ, (freshMPS 3 2).wavefunction = .ok l ∧
      l.length = 2 ^ 3 ∧
      ∀ k < 2 ^ 3, l.getD k 0 = if k = 0 then 1 else 0 :=
  claim_C3 3 2 (by norm_num) (by norm_num)

/-- C4: On the freshly constructed chain (whose `_max_bond_dimensions`
field is never modified afterwards), `get_max_bond_dimension_of(i)` for a
bond index `0 ≤ i < N − 1` reports `min(d^(i+1), d^(N−i−1))`. -/
theorem claim_C4 (n d i : ℕ) (hn : 2 ≤ n) (hd : 2 ≤ d) (hi : i < n - 1) :
    (freshMPS n d).get_max_bond_dimension_of (i : ℤ)
      = .ok (min (d ^ (i + 1)) (d ^ (n - i - 1))) := by
  have hlen : (freshMPS n d).maxBondDims.length = n - 1 :=
    mbdList_length n d hn hd
  unfold MPS.get_max_bond_dimension_of
  rw [if_neg (by simp only [freshMPS]; omega)]
  have h1 : pyResolve (freshMPS n d).maxBondDims.length (i : ℤ) = .ok i := by
    unfold pyResolve
    rw [if_pos (by omega), if_pos (by omega)]
    simp
  rw [h1]
  show Except.ok ((mbdList n d).getD i 0)
    = Except.ok (min (d ^ (i + 1)) (d ^ (n - i - 1)))
  rw [mbdList_getD n d i hn hd hi]

/-- C4 witness at the concrete instance `N = 3`, `d = 2`, `i = 1`. -/
theorem claim_C4_witness :
    (freshMPS 3 2).get_max_bond_dimension_of (1 : ℤ)
      = .ok (min (2 ^ (1 + 1)) (2 ^ (3 - 1 - 1))) :=
  claim_C4 3 2 1 (by norm_num) (by norm_num) (by norm_num)

/-! ## Construction guard (C6) -/

/-- C6 counterexample: constructing with qudit dimension `d = 1 < 2`
succeeds — `__init__` validates only the number of sites, so the claim that
`d < 2` fails with `InvalidShape` is false at `MPS(2, 1)`. -/
theorem claim_C6_counterexample : MPS.init 2 1 = .ok (freshMPS 2 1) := rfl

/-- C6 (amended): constructing with fewer than 2 sites fails with the
`InvalidShape` error and no chain is produced; the qudit dimension is not
validated — any `d` (including `d < 2`) is accepted and a chain is
produced. -/
theorem claim_C6 (n d : ℕ) :
    (n < 2 → MPS.init n d = .error .invalidShape) ∧
    (2 ≤ n → MPS.init n d = .ok (freshMPS n d)) := by
  constructor <;> intro h <;> unfold MPS.init
  · rw [if_pos h]
  · rw [if_neg (by omega)]

/-- C6 witness: `MPS(1, 2)` fails with `InvalidShape`; `MPS(3, 1)` (qudit
dimension below 2) is accepted. -/
theorem claim_C6_witness :
    MPS.init 1 2 = .error .invalidShape ∧ MPS.init 3 1 = .ok (freshMPS 3 1) :=
  ⟨(claim_C6 1 2).1 (by norm_num), (claim_C6 3 1).2 (by norm_num)⟩

/-! ## Two-site gate with reversed index order (C7) -/

/-- A dummy rank-4 gate used by concrete witnesses (the theorems quantify
over every gate). -/
def anyGate2 : Gate2 := fun _ _ _ _ => 0

/-- C7: on a valid chain, a two-site gate called with adjacent indices in
reversed order (`indexA = j + 1`, `indexB = j`) fails with the
`IndexA must be less than IndexB` error (`InvalidIndexOrder`); the indices
are not silently swapped.  In the source all checks up to and including
this one happen before any edge is connected or any tensor replaced
(lines 365–395 precede the first `tn.connect` at line 397), so the site
tensors are untouched by the failed call — in this pure embedding the
error return carries no new state at all. -/
theorem claim_C7 (m : MPS) (g : Gate2) (j : ℕ) (opts : TwoQubitOptions)
    (hv : m.is_valid = true) (hub : (j : ℤ) + 1 < (m.nqudits : ℤ)) :
    m.apply_two_qubit_gate g ((j : ℤ) + 1) (j : ℤ) opts
      = .error .indexOrder := by
  unfold MPS.apply_two_qubit_gate
  rw [if_neg (by simp [hv]),
    if_neg (not_not_intro ⟨by omega, by omega, by omega, by omega⟩),
    if_neg (show ¬((j : ℤ) + 1 = (j : ℤ)) by omega),
    if_neg (not_not_intro (show (((j : ℤ) + 1) - (j : ℤ)).natAbs = 1 by omega)),
    if_neg (show ¬((j : ℤ) + 1 < (j : ℤ)) by omega)]

/-- C7 witness: the CNOT-shaped call on `MPS(2, 2)` with indices `(1, 0)`
fails with the index-order error. -/
theorem claim_C7_witness :
    (freshMPS 2 2).apply_two_qubit_gate anyGate2 ((0 : ℤ) + 1) (0 : ℤ) {}
      = .error .indexOrder :=
  claim_C7 (freshMPS 2 2) anyGate2 0 {}
    (freshMPS_is_valid 2 2 (by norm_num)) (by decide)

/-! ## Dispatcher on non-adjacent two-qudit operations (C2) -/

/-- C2 counterexample: a valid arity-2 operation with the in-bounds,
distinct, non-adjacent targets `(0, 2)` on a fresh 3-qudit chain is NOT
routed through the swap router — `apply_mps_operation` hands it directly to
`apply_two_qubit_gate`, which fails with the non-adjacency error, refuting
the claim that the dispatcher first establishes adjacency rather than
failing. -/
theorem claim_C2_counterexample :
    (freshMPS 3 2).apply_mps_operation ⟨.two anyGate2, [0, 2]⟩ {}
      = .error .nonAdjacent := rfl

/-- C2 (amended): for a valid arity-2 operation whose two target indices
are in bounds, distinct and non-adjacent, the dispatcher does not invoke
the swap router; it calls the two-site gate application directly, which
fails with the non-adjacency error.  Adjacency must be established by the
caller via `swap_until_adjacent`. -/
theorem claim_C2 (m : MPS) (g : Gate2) (i j : ℤ) (opts : TwoQubitOptions)
    (hv : m.is_valid = true)
    (hi0 : 0 ≤ i) (hin : i < (m.nqudits : ℤ))
    (hj0 : 0 ≤ j) (hjn : j < (m.nqudits : ℤ))
    (hfar : 1 < (i - j).natAbs) :
    m.apply_mps_operation ⟨.two g, [i, j]⟩ opts = .error .nonAdjacent := by
  have hne : i ≠ j := by omega
  unfold MPS.apply_mps_operation
  rw [if_neg (by simp [MPSOperation.is_valid, hne]),
    if_neg (by simp [MPSOperation.is_single_qudit_operation]),
    if_pos (by simp [MPSOperation.is_two_qudit_operation])]
  show m.apply_two_qubit_gate g i j opts = .error .nonAdjacent
  unfold MPS.apply_two_qubit_gate
  rw [if_neg (by simp [hv]),
    if_neg (not_not_intro ⟨hi0, hin, hj0, hjn⟩),
    if_neg hne,
    if_pos (show (i - j).natAbs ≠ 1 by omega)]

/-- C2 witness for the amended dispatcher behaviour, at targets `(2, 0)` on
a fresh 3-qudit chain. -/
theorem claim_C2_witness :
    (freshMPS 3 2).apply_mps_operation ⟨.two anyGate2, [2, 0]⟩ {}
      = .error .nonAdjacent :=
  claim_C2 (freshMPS 3 2) anyGate2 2 0 {}
    (freshMPS_is_valid 3 2 (by norm_num))
    (by decide) (by decide) (by decide) (by decide) (by decide)

/-! ## One-site gate application (C8) -/

/-- C8: on a valid chain, applying a (structurally valid) one-site gate to
an in-bounds site succeeds, leaves the dimension of every virtual bond
unchanged (the `bonds` field is untouched), and preserves the name of the
site tensor (the source contracts with `name=self._nodes[index].name`). -/
theorem claim_C8 (m : MPS) (g : Gate1) (i : ℤ) (hv : m.is_valid = true)
    (hn : m.nqudits = m.nodes.length) (h0 : 0 ≤ i)
    (hlt : i < (m.nqudits : ℤ)) :
    ∃ m', m.apply_one_qubit_gate g i = .ok m' ∧
      m'.bonds = m.bonds ∧
      (m'.nodes.getD i.toNat blankNode).name
        = (m.nodes.getD i.toNat blankNode).name := by
  have happ : m.apply_one_qubit_gate g i = .ok (oneQubitUpdate m g i.toNat) := by
    unfold MPS.apply_one_qubit_gate
    rw [if_neg (by simp [hv]), if_neg (not_not_intro ⟨h0, hlt⟩)]
  refine ⟨_, happ, rfl, ?_⟩
  have hrange : i.toNat < m.nodes.length := by omega
  unfold oneQubitUpdate
  rw [List.getD_eq_getElem _ _ (by simpa using hrange)]
  simp only [List.getElem_set_self]
  rfl

/-- C8 witness: the X gate on site 1 of `MPS(2, 3)`. -/
theorem claim_C8_witness :
    ∃ m', (freshMPS 2 3).apply_one_qubit_gate xmatrix 1 = .ok m' ∧
      m'.bonds = (freshMPS 2 3).bonds ∧
      (m'.nodes.getD (1 : ℤ).toNat blankNode).name
        = ((freshMPS 2 3).nodes.getD (1 : ℤ).toNat blankNode).name :=
  claim_C8 (freshMPS 2 3) xmatrix 1 (freshMPS_is_valid 2 3 (by norm_num))
    (by exact (freshNodes_length 2 (by norm_num)).symm) (by decide) (by decide)

/-! ## The `-1` convenience index (C9) -/

/-- Iterating `apply_one_qubit_gate` over `range'(j, cnt)` on a valid chain
transforms the sites from `j` onwards (those are exactly the remaining loop
indices) and nothing else. -/
theorem applyAll_go (g : Gate1) :
    ∀ (cnt : ℕ) (s : MPS) (j : ℕ), s.is_valid = true →
      s.nqudits = s.nodes.length → j + cnt = s.nqudits →
      (List.range' j cnt).foldlM
          (fun st i => st.apply_one_qubit_gate g (i : ℤ)) s
        = .ok { s with nodes := s.nodes.take j
            ++ (s.nodes.drop j).map (applyGateToNode g s.qudit_dimension) } := by
  intro cnt
  induction cnt with
  | zero =>
    intro s j hv hn hj
    have htake : s.nodes.take j = s.nodes := List.take_of_length_le (by omega)
    have hdrop : s.nodes.drop j = [] := List.drop_eq_nil_of_le (by omega)
    simp only [List.range'_zero, List.foldlM_nil, htake, hdrop, List.map_nil,
      List.append_nil]
    rfl
  | succ cnt ih =>
    intro s j hv hn hj
    have hjlt : j < s.nodes.length := by omega
    rw [List.range'_succ, List.foldlM_cons]
    have happ : s.apply_one_qubit_gate g (j : ℤ)
        = .ok (oneQubitUpdate s g (j : ℤ).toNat) := by
      unfold MPS.apply_one_qubit_gate
      rw [if_neg (by simp [hv]), if_neg (not_not_intro ⟨by omega, by omega⟩)]
    have htoNat : ((j : ℤ)).toNat = j := Int.toNat_natCast j
    rw [happ, except_ok_bind, htoNat]
    rw [ih (oneQubitUpdate s g j) (j + 1)
      (by simp only [MPS.is_valid, oneQubitUpdate, List.length_set] at hv ⊢
          exact hv)
      (by simpa [oneQubitUpdate] using hn)
      (by simp only [oneQubitUpdate]; omega)]
    congr 1
    simp only [oneQubitUpdate]
    rw [List.take_succ, List.set_take, List.getElem?_set_self (by omega),
      List.drop_set, if_pos (by omega),
      List.set_eq_of_length_le (by rw [List.length_take]; omega),
      List.drop_eq_getElem_cons hjlt, List.map_cons,
      List.getD_eq_getElem _ _ hjlt]
    simp

/-- On a valid chain, `apply_one_qubit_gate_to_all` succeeds and contracts
the gate once into every site, in order from site 0 to site `N - 1`. -/
theorem applyAll_eq (m : MPS) (g : Gate1) (hv : m.is_valid = true)
    (hn : m.nqudits = m.nodes.length) :
    m.apply_one_qubit_gate_to_all g
      = .ok { m with
          nodes := m.nodes.map (applyGateToNode g m.qudit_dimension) } := by
  unfold MPS.apply_one_qubit_gate_to_all
  rw [List.range_eq_range', applyAll_go g m.nqudits m 0 hv hn (by omega)]
  simp

/-- C9: calling `x`, `h` or `r` with `index = -1` on a valid chain does not
fail with an out-of-range error; the gate is instead applied once to every
site, in order from site 0 to site `N − 1` (the loop iterates over
`range(nqudits)`). -/
theorem claim_C9 (m : MPS) (seed : ℕ) (angle_scale : ℚ)
    (hv : m.is_valid = true) (hn : m.nqudits = m.nodes.length) :
    m.x (-1) = .ok { m with
      nodes := m.nodes.map (applyGateToNode xmatrix m.qudit_dimension) } ∧
    m.h (-1) = .ok { m with
      nodes := m.nodes.map (applyGateToNode hmatrix m.qudit_dimension) } ∧
    m.r seed angle_scale (-1) = .ok { m with
      nodes := m.nodes.map
        (applyGateToNode (rgate seed angle_scale) m.qudit_dimension) } := by
  refine ⟨?_, ?_, ?_⟩
  · unfold MPS.x
    rw [if_pos rfl]
    exact applyAll_eq m xmatrix hv hn
  · unfold MPS.h
    rw [if_pos rfl]
    exact applyAll_eq m hmatrix hv hn
  · unfold MPS.r
    rw [if_pos rfl, List.range_eq_range',
      applyAll_go (rgate seed angle_scale) m.nqudits m 0 hv hn (by omega)]
    simp

/-- C9 witness on `MPS(2, 2)` (with seed 7 and unit angle scale for `r`). -/
theorem claim_C9_witness :
    (freshMPS 2 2).x (-1) = .ok { freshMPS 2 2 with
      nodes := (freshMPS 2 2).nodes.map
        (applyGateToNode xmatrix (freshMPS 2 2).qudit_dimension) } ∧
    (freshMPS 2 2).h (-1) = .ok { freshMPS 2 2 with
      nodes := (freshMPS 2 2).nodes.map
        (applyGateToNode hmatrix (freshMPS 2 2).qudit_dimension) } ∧
    (freshMPS 2 2).r 7 1 (-1) = .ok { freshMPS 2 2 with
      nodes := (freshMPS 2 2).nodes.map
        (applyGateToNode (rgate 7 1) (freshMPS 2 2).qudit_dimension) } :=
  claim_C9 (freshMPS 2 2) 7 1 (freshMPS_is_valid 2 2 (by norm_num))
    (by exact (freshNodes_length 2 (by norm_num)).symm)

/-! ## Bond ceilings after a two-site gate (C5) -/

/-- `freshMPS` establishes `WellFormed`. -/
theorem freshMPS_wellFormed (n d : ℕ) (hn : 2 ≤ n) (hd : 2 ≤ d) :
    (freshMPS n d).WellFormed :=
  ⟨(freshNodes_length n hn).symm,
   by simp only [freshMPS, List.length_replicate]; omega,
   rfl, hn, hd⟩

theorem getD_one_eq_getD_zero (l : List ℕ) (k : ℕ) (h : k < l.length) :
    l.getD k 1 = l.getD k 0 := by
  rw [List.getD_eq_getElem _ _ h, List.getD_eq_getElem _ _ h]

/-- The number of kept singular values never exceeds the thin-SVD rank
`min dL dR`, whatever the cap. -/
theorem kept_le_min (dL dR : ℕ) (cap : Option ℤ) :
    keptSvals dL dR cap ≤ min dL dR := by
  cases cap with
  | none => exact le_rfl
  | some c => exact min_le_left _ _


/-- Setting bond `i` to any value bounded by the SVD rank
`min(d·left, d·right)` keeps every bond below its ceiling, provided the
invariant held before the update. -/
theorem bond_update_bound (m : MPS) (i x : ℕ)
    (hn : m.nqudits = m.nodes.length) (hb : m.bonds.length + 1 = m.nqudits)
    (hmbd : m.maxBondDims = mbdList m.nqudits m.qudit_dimension)
    (hn2 : 2 ≤ m.nqudits) (hd2 : 2 ≤ m.qudit_dimension)
    (hinv : ∀ k, k < m.bonds.length →
      m.bonds.getD k 0 ≤ m.maxBondDims.getD k 0)
    (hi : i + 1 < m.nqudits)
    (hx : x ≤ min
      (m.qudit_dimension * (if i = 0 then 1 else m.bonds.getD (i - 1) 1))
      (m.qudit_dimension *
        (if i + 1 = m.nqudits - 1 then 1 else m.bonds.getD (i + 1) 1))) :
    ∀ k, k < (m.bonds.set i x).length →
      (m.bonds.set i x).getD k 0 ≤ m.maxBondDims.getD k 0 := by
  intro k hk
  have hklen : k < m.bonds.length := by simpa using hk
  by_cases hki : k = i
  · subst hki
    rw [List.getD_eq_getElem _ _ hk, List.getElem_set_self]
    -- the new bond is below the rank, which is below the ceiling
    have hdL : m.qudit_dimension *
        (if k = 0 then 1 else m.bonds.getD (k - 1) 1)
        ≤ m.qudit_dimension ^ (k + 1) := by
      by_cases hk0 : k = 0
      · simp [hk0]
      · rw [if_neg hk0]
        have hprev : k - 1 < m.bonds.length := by omega
        have h1 := hinv (k - 1) hprev
        rw [hmbd, mbdList_getD m.nqudits m.qudit_dimension (k - 1) hn2 hd2
          (by omega)] at h1
        have h2 : m.bonds.getD (k - 1) 1
            ≤ m.qudit_dimension ^ (k - 1 + 1) :=
          le_trans (le_of_eq (getD_one_eq_getD_zero _ _ hprev))
            (le_trans h1 (min_le_left _ _))
        calc m.qudit_dimension * m.bonds.getD (k - 1) 1
            ≤ m.qudit_dimension * m.qudit_dimension ^ (k - 1 + 1) :=
              Nat.mul_le_mul_left _ h2
          _ = m.qudit_dimension ^ (k - 1 + 1 + 1) := by ring
          _ = m.qudit_dimension ^ (k + 1) := by congr 1; omega
    have hdR : m.qudit_dimension *
        (if k + 1 = m.nqudits - 1 then 1 else m.bonds.getD (k + 1) 1)
        ≤ m.qudit_dimension ^ (m.nqudits - k - 1) := by
      by_cases hklast : k + 1 = m.nqudits - 1
      · rw [if_pos hklast]
        have : m.nqudits - k - 1 = 1 := by omega
        simp [this]
      · rw [if_neg hklast]
        have hnext : k + 1 < m.bonds.length := by omega
        have h1 := hinv (k + 1) hnext
        rw [hmbd, mbdList_getD m.nqudits m.qudit_dimension (k + 1) hn2 hd2
          (by omega)] at h1
        have h2 : m.bonds.getD (k + 1) 1
            ≤ m.qudit_dimension ^ (m.nqudits - (k + 1) - 1) :=
          le_trans (le_of_eq (getD_one_eq_getD_zero _ _ hnext))
            (le_trans h1 (min_le_right _ _))
        calc m.qudit_dimension * m.bonds.getD (k + 1) 1
            ≤ m.qudit_dimension
              * m.qudit_dimension ^ (m.nqudits - (k + 1) - 1) :=
              Nat.mul_le_mul_left _ h2
          _ = m.qudit_dimension ^ (m.nqudits - (k + 1) - 1 + 1) := by ring
          _ = m.qudit_dimension ^ (m.nqudits - k - 1) := by congr 1; omega
    rw [hmbd, mbdList_getD m.nqudits m.qudit_dimension k hn2 hd2 (by omega)]
    exact le_trans hx (min_le_min hdL hdR)
  · rw [List.getD_eq_getElem _ _ hk, List.getElem_set_ne (fun h => hki h.symm),
      ← List.getD_eq_getElem _ 0 hklen]
    exact hinv k hklen

/-- The `twoQubitUpdate` state keeps every bond below its ceiling whenever
the chain was well-formed and within ceilings before the gate. -/
theorem twoQubitUpdate_bound (m : MPS) (i : ℕ) (cap : Option ℤ)
    (hn : m.nqudits = m.nodes.length) (hb : m.bonds.length + 1 = m.nqudits)
    (hmbd : m.maxBondDims = mbdList m.nqudits m.qudit_dimension)
    (hn2 : 2 ≤ m.nqudits) (hd2 : 2 ≤ m.qudit_dimension)
    (hinv : ∀ k, k < m.bonds.length →
      m.bonds.getD k 0 ≤ m.maxBondDims.getD k 0)
    (hilt : i + 1 < m.nqudits) :
    ∀ k, k < (twoQubitUpdate m i (i + 1) cap).bonds.length →
      (twoQubitUpdate m i (i + 1) cap).bonds.getD k 0
        ≤ (twoQubitUpdate m i (i + 1) cap).maxBondDims.getD k 0 := by
  intro k hk
  simp only [twoQubitUpdate] at hk ⊢
  exact bond_update_bound m i _ hn hb hmbd hn2 hd2 hinv hilt
    (kept_le_min _ _ cap) k hk

/-- C5: if all invariants hold (in particular every bond is below its
ceiling), then after any successful two-site gate application on adjacent
sites `(i, i+1)` — with or without a truncation option — every bond
dimension is still bounded by the corresponding maximum bond dimension. -/
theorem claim_C5 (m : MPS) (g : Gate2) (i : ℕ) (opts : TwoQubitOptions)
    (m' : MPS) (hwf : m.WellFormed)
    (hinv : ∀ k, k < m.bonds.length →
      m.bonds.getD k 0 ≤ m.maxBondDims.getD k 0)
    (happ : m.apply_two_qubit_gate g (i : ℤ) ((i : ℤ) + 1) opts = .ok m') :
    ∀ k, k < m'.bonds.length →
      m'.bonds.getD k 0 ≤ m'.maxBondDims.getD k 0 := by
  obtain ⟨hn, hb, hmbd, hn2, hd2⟩ := hwf
  unfold MPS.apply_two_qubit_gate at happ
  split at happ
  · simp at happ
  split at happ
  · simp at happ
  rename_i hbounds
  have hilt : i + 1 < m.nqudits := by
    have h := not_not.mp hbounds
    omega
  split at happ
  · simp at happ
  split at happ
  · simp at happ
  split at happ
  case isFalse => simp at happ
  have htn : ((i : ℤ)).toNat = i := by omega
  have htn1 : ((i : ℤ) + 1).toNat = i + 1 := by omega
  rw [htn, htn1] at happ
  split at happ
  · -- fraction and maxsvals both supplied: conflicting options, no .ok
    simp at happ
  · -- fraction alone
    split at happ
    · rw [Except.ok.injEq] at happ
      subst happ
      exact twoQubitUpdate_bound m i _ hn hb hmbd hn2 hd2 hinv hilt
    · simp at happ
  · -- maxsvals alone
    rw [Except.ok.injEq] at happ
    subst happ
    exact twoQubitUpdate_bound m i _ hn hb hmbd hn2 hd2 hinv hilt
  · -- no truncation option
    rw [Except.ok.injEq] at happ
    subst happ
    exact twoQubitUpdate_bound m i _ hn hb hmbd hn2 hd2 hinv hilt

/-- C5 witness: the no-option two-site gate on sites `(0, 1)` of
`MPS(2, 2)`. -/
theorem claim_C5_witness :
    ∃ m', (freshMPS 2 2).apply_two_qubit_gate anyGate2 ((0 : ℕ) : ℤ)
        (((0 : ℕ) : ℤ) + 1) {} = .ok m' ∧
      ∀ k, k < m'.bonds.length →
        m'.bonds.getD k 0 ≤ m'.maxBondDims.getD k 0 :=
  ⟨_, rfl, claim_C5 (freshMPS 2 2) anyGate2 0 {} _
    (freshMPS_wellFormed 2 2 (by norm_num) (by norm_num))
    (fun k hk => by
      have hk0 : k = 0 := by
        simp only [freshMPS, List.length_replicate] at hk
        omega
      subst hk0
      decide)
    rfl⟩

/-! ## `norm()` (C1) -/

/-- A structurally legal one-qudit gate tensor (two dangling edges, no
connected edges) that scales `|0⟩` by 2 — `apply_one_qubit_gate` checks
only the edge counts, so it is accepted.  Used to exhibit a valid chain
whose wavefunction is not normalised. -/
def doubleGate : Gate1 := fun a b => if a = 0 ∧ b = 0 then 2 else 0

/-- The chain obtained from a fresh `MPS(2, 2)` by applying `doubleGate` to
site 0; its wavefunction is `2·e₀`, with `⟨ψ|ψ⟩ = 4`. -/
noncomputable def scaledChain : MPS := oneQubitUpdate (freshMPS 2 2) doubleGate 0

theorem scaledChain_amp (k : ℕ) :
    scaledChain.amp k = if k / 2 % 2 = 0 ∧ k % 2 = 0 then 2 else 0 := by
  show contractChain 1 _ scaledChain.nodes scaledChain.bonds
      (basisDigits 2 2 k) = _
  have hnodes : scaledChain.nodes
      = [⟨"q" ++ Nat.repr 0, fun p l r =>
            ∑ q ∈ Finset.range 2, e0Tensor q l r * doubleGate q p⟩,
         ⟨"q" ++ Nat.repr 1, e0Tensor⟩] := rfl
  have hbonds : scaledChain.bonds = [1] := rfl
  have hdigits : basisDigits 2 2 k = [k / 2 % 2, k % 2] := by
    simp [basisDigits, List.range_succ]
  rw [hnodes, hbonds, hdigits, contractChain_cons]
  simp only [List.headD_cons, List.tail_cons]
  rw [contractChain_cons]
  simp only [List.headD_nil, List.tail_nil]
  rw [contractChain_nil]
  simp only [Finset.sum_range_one, Finset.sum_range_succ]
  by_cases h1 : k / 2 % 2 = 0 <;> by_cases h2 : k % 2 = 0 <;>
    simp [e0Tensor, doubleGate, h1, h2]

/-- C1 counterexample: `norm()` does not take the square root.  For the
valid chain `scaledChain` (a fresh two-qubit chain with `|0⟩` scaled by 2
on site 0, reached by a legal `apply_one_qubit_gate` call), the inner
product `⟨ψ|ψ⟩` of the contracted wavefunction with its conjugate is 4;
`norm()` returns 4 — the inner product itself — whereas the claimed
`√⟨ψ|ψ⟩` is 2. -/
theorem claim_C1_counterexample :
    (freshMPS 2 2).apply_one_qubit_gate doubleGate 0 = .ok scaledChain ∧
    scaledChain.is_valid = true ∧
    scaledChain.norm = 4 ∧
    Real.sqrt (∑ k ∈ Finset.range
        (scaledChain.qudit_dimension ^ scaledChain.nqudits),
      Complex.normSq (scaledChain.amp k)) = 2 ∧
    scaledChain.norm ≠ Real.sqrt (∑ k ∈ Finset.range
        (scaledChain.qudit_dimension ^ scaledChain.nqudits),
      Complex.normSq (scaledChain.amp k)) := by
  have hsum : ∑ k ∈ Finset.range
        (scaledChain.qudit_dimension ^ scaledChain.nqudits),
      Complex.normSq (scaledChain.amp k) = 4 := by
    show ∑ k ∈ Finset.range 4, Complex.normSq (scaledChain.amp k) = 4
    rw [Finset.sum_range_succ, Finset.sum_range_succ, Finset.sum_range_succ,
      Finset.sum_range_one, scaledChain_amp 0, scaledChain_amp 1,
      scaledChain_amp 2, scaledChain_amp 3]
    norm_num [Complex.normSq_ofNat]
  have hnorm : scaledChain.norm = 4 := by
    unfold MPS.norm
    show Complex.abs (∑ k ∈ Finset.range 4,
      scaledChain.amp k * (starRingEnd ℂ) (scaledChain.amp k)) = 4
    rw [Finset.sum_range_succ, Finset.sum_range_succ, Finset.sum_range_succ,
      Finset.sum_range_one, scaledChain_amp 0, scaledChain_amp 1,
      scaledChain_amp 2, scaledChain_amp 3]
    norm_num
  have hsqrt : Real.sqrt (∑ k ∈ Finset.range
        (scaledChain.qudit_dimension ^ scaledChain.nqudits),
      Complex.normSq (scaledChain.amp k)) = 2 := by
    rw [hsum, show (4 : ℝ) = 2 ^ 2 by norm_num,
      Real.sqrt_sq (by norm_num : (0 : ℝ) ≤ 2)]
  refine ⟨rfl, rfl, hnorm, hsqrt, ?_⟩
  rw [hnorm, hsqrt]
  norm_num

/-- C1 (amended): `norm()` returns the inner product `⟨ψ|ψ⟩` of the
contracted wavefunction with its complex conjugate itself (its absolute
value — not its square root), and the returned value is a non-negative
real number. -/
theorem claim_C1 (m : MPS) (l : List ℂ) (hwv : m.wavefunction = .ok l) :
    m.norm = ∑ k ∈ Finset.range (m.qudit_dimension ^ m.nqudits),
      Complex.normSq (l.getD k 0) ∧ 0 ≤ m.norm := by
  have hl : l = (List.range (m.qudit_dimension ^ m.nqudits)).map
      fun k => m.amp k := by
    unfold MPS.wavefunction at hwv
    split at hwv
    · simp at hwv
    · rw [Except.ok.injEq] at hwv
      exact hwv.symm
  have hgetD : ∀ k ∈ Finset.range (m.qudit_dimension ^ m.nqudits),
      Complex.normSq (l.getD k 0) = Complex.normSq (m.amp k) := by
    intro k hk
    rw [hl, List.getD_eq_getElem _ _ (by simpa using Finset.mem_range.mp hk)]
    simp
  have hsum : ∑ k ∈ Finset.range (m.qudit_dimension ^ m.nqudits),
      Complex.normSq (l.getD k 0)
      = ∑ k ∈ Finset.range (m.qudit_dimension ^ m.nqudits),
        Complex.normSq (m.amp k) := Finset.sum_congr rfl hgetD
  have hinner : (∑ k ∈ Finset.range (m.qudit_dimension ^ m.nqudits),
      m.amp k * (starRingEnd ℂ) (m.amp k))
      = ((∑ k ∈ Finset.range (m.qudit_dimension ^ m.nqudits),
        Complex.normSq (m.amp k) : ℝ) : ℂ) := by
    rw [Complex.ofReal_sum]
    exact Finset.sum_congr rfl fun k _ => Complex.mul_conj _
  constructor
  · unfold MPS.norm
    rw [hinner, hsum, Complex.abs_ofReal,
      abs_of_nonneg (Finset.sum_nonneg fun k _ => Complex.normSq_nonneg _)]
  · exact Complex.abs.nonneg _

/-- C1 witness for the amended statement, at the fresh two-qubit chain. -/
theorem claim_C1_witness :
    (freshMPS 2 2).norm = ∑ k ∈ Finset.range
        ((freshMPS 2 2).qudit_dimension ^ (freshMPS 2 2).nqudits),
      Complex.normSq ((((List.range (2 ^ 2)).map
        fun k => (freshMPS 2 2).amp k)).getD k 0) ∧
    0 ≤ (freshMPS 2 2).norm :=
  claim_C1 (freshMPS 2 2) _ (by
    unfold MPS.wavefunction
    rw [if_neg (by simp [freshMPS_is_valid 2 2 (by norm_num)])]
    rfl)

/-! ## Index handling of `get_bond_dimension_of` (C10) -/

theorem pyResolve_ok_nonneg (len : ℕ) (i : ℤ) (h0 : 0 ≤ i)
    (hlt : i < (len : ℤ)) : pyResolve len i = .ok i.toNat := by
  unfold pyResolve
  rw [if_pos h0, if_pos hlt]

theorem pyResolve_err_ge (len : ℕ) (i : ℤ) (h0 : 0 ≤ i)
    (hge : (len : ℤ) ≤ i) : pyResolve len i = .error .indexError := by
  unfold pyResolve
  rw [if_pos h0, if_neg (by omega)]

theorem pyResolve_ok_neg (len : ℕ) (i : ℤ) (hneg : i < 0)
    (hge : 0 ≤ i + (len : ℤ)) :
    pyResolve len i = .ok (i + (len : ℤ)).toNat := by
  unfold pyResolve
  rw [if_neg (by omega), if_pos hge]

theorem pyResolve_err_neg (len : ℕ) (i : ℤ) (hlt : i + (len : ℤ) < 0) :
    pyResolve len i = .error .indexError := by
  unfold pyResolve
  rw [if_neg (by omega), if_neg (by omega)]

/-- C10: on a valid chain the bounds check of `get_bond_dimension_of`
rejects exactly the indices `≥ N` (with the documented `ValueError`); the
in-range-but-bondless index `N − 1` passes that check and the call then
fails with a plain `IndexError` while fetching the nonexistent node `N`;
and every negative index in `[-N, -2]` is interpreted by Python wrap-around
against the node list — the call succeeds and returns the bond at position
`N + index` instead of being rejected. -/
theorem claim_C10 (m : MPS) (hwf : m.WellFormed) :
    (∀ i : ℤ, (m.nqudits : ℤ) ≤ i →
      m.get_bond_dimension_of i = .error .indexOutOfRange) ∧
    (∀ i : ℤ, i < (m.nqudits : ℤ) →
      m.get_bond_dimension_of i ≠ .error .indexOutOfRange) ∧
    (m.get_bond_dimension_of ((m.nqudits : ℤ) - 1) = .error .indexError) ∧
    (∀ i : ℤ, -(m.nqudits : ℤ) ≤ i → i ≤ -2 →
      m.get_bond_dimension_of i
        = .ok (m.bonds.getD (i + (m.nqudits : ℤ)).toNat 0)) := by
  obtain ⟨hn, hb, _, hn2, _⟩ := hwf
  have hv : m.is_valid = true := by
    simp only [MPS.is_valid, Bool.and_eq_true, decide_eq_true_eq]
    omega
  have hlen : m.nodes.length = m.nqudits := hn.symm
  refine ⟨?_, ?_, ?_, ?_⟩
  · intro i hge
    unfold MPS.get_bond_dimension_of
    rw [if_neg (by simp [hv]), if_pos hge]
  · intro i hlt
    unfold MPS.get_bond_dimension_of
    rw [if_neg (by simp [hv]), if_neg (by omega)]
    rcases lt_or_ge i 0 with hneg | hpos
    · rcases lt_or_ge (i + (m.nodes.length : ℤ)) 0 with hww | hwr
      · rw [pyResolve_err_neg _ _ hww, except_error_bind]
        intro heq
        injection heq with h
        exact absurd h (by decide)
      · rw [pyResolve_ok_neg _ _ hneg hwr, except_ok_bind]
        rcases eq_or_lt_of_le (show i ≤ -1 by omega) with hi1 | hi2
        · -- i = -1: the right neighbour wraps around to node 0
          rw [show i + 1 = 0 by omega,
            pyResolve_ok_nonneg _ _ le_rfl (by omega), except_ok_bind]
          unfold checkConnectedBond
          split
          · intro heq
            injection heq
          · intro heq
            injection heq with h
            exact absurd h (by decide)
        · -- i ≤ -2: the neighbour wraps too; the call returns a bond
          rw [pyResolve_ok_neg _ (i + 1) (by omega) (by omega), except_ok_bind]
          unfold checkConnectedBond
          rw [if_pos (by omega)]
          intro heq
          injection heq
    · rcases eq_or_lt_of_le (show i ≤ (m.nodes.length : ℤ) - 1 by omega)
        with hi1 | hi2
      · -- i = nqudits - 1: fetching node N raises IndexError
        rw [pyResolve_ok_nonneg _ _ hpos (by omega), except_ok_bind,
          pyResolve_err_ge _ (i + 1) (by omega) (by omega), except_error_bind]
        intro heq
        injection heq with h
        exact absurd h (by decide)
      · -- 0 ≤ i < nqudits - 1: the ordinary success path
        rw [pyResolve_ok_nonneg _ _ hpos (by omega), except_ok_bind,
          pyResolve_ok_nonneg _ (i + 1) (by omega) (by omega), except_ok_bind]
        unfold checkConnectedBond
        rw [if_pos (by omega)]
        intro heq
        injection heq
  · unfold MPS.get_bond_dimension_of
    rw [if_neg (by simp [hv]), if_neg (by omega),
      pyResolve_ok_nonneg _ _ (by omega) (by omega), except_ok_bind,
      show (m.nqudits : ℤ) - 1 + 1 = (m.nqudits : ℤ) by omega,
      pyResolve_err_ge _ _ (by omega) (by omega), except_error_bind]
  · intro i hge hle
    unfold MPS.get_bond_dimension_of
    rw [if_neg (by simp [hv]), if_neg (by omega),
      pyResolve_ok_neg _ _ (by omega) (by omega), except_ok_bind,
      pyResolve_ok_neg _ (i + 1) (by omega) (by omega), except_ok_bind]
    unfold checkConnectedBond
    rw [if_pos (by omega)]
    rw [show min (i + (m.nodes.length : ℤ)).toNat
        (i + 1 + (m.nodes.length : ℤ)).toNat
        = (i + (m.nodes.length : ℤ)).toNat from by omega]
    rw [hlen]

/-- C10 witness on the fresh three-qubit chain: index 5 is rejected by the
bounds check, index 2 (= N − 1) passes it but fails with `IndexError`, and
index −2 wraps around to bond 1. -/
theorem claim_C10_witness :
    (freshMPS 3 2).get_bond_dimension_of 5 = .error .indexOutOfRange ∧
    (freshMPS 3 2).get_bond_dimension_of 2 ≠ .error .indexOutOfRange ∧
    (freshMPS 3 2).get_bond_dimension_of (((freshMPS 3 2).nqudits : ℤ) - 1)
      = .error .indexError ∧
    (freshMPS 3 2).get_bond_dimension_of (-2)
      = .ok ((freshMPS 3 2).bonds.getD
          ((-2 : ℤ) + ((freshMPS 3 2).nqudits : ℤ)).toNat 0) := by
  obtain ⟨h1, h2, h3, h4⟩ :=
    claim_C10 (freshMPS 3 2) (freshMPS_wellFormed 3 2 (by norm_num) (by norm_num))
  exact ⟨h1 5 (by decide), h2 2 (by decide), h3, h4 (-2) (by decide) (by decide)⟩

end Mpsim
